import Mathlib

/-!
Shallow embedding of the gemini-parse crate (src/lib.rs, src/iter.rs).

Buffers are `List Nat` of byte values.  The byte cursor of `iter.rs` is a
position into the buffer; each scanning function below takes the current
position `pos` together with the buffer suffix that starts at `pos`, which
makes the sequential peek/bump/next discipline of the Rust code structural
recursion on the suffix.
-/

namespace Gemini

/-- Error kinds (`enum Error` in src/lib.rs).  `InvalidUtf8` and `ParseUrl`
carry payloads in Rust; the payloads play no role in the parser's control
flow, so they are dropped here. -/
inductive Error where
  | NewLine
  | InvalidUtf8
  | ParseUrl
  | ResponseHeader
  | Status
  deriving DecidableEq, Repr

/-- `enum Status<T>` in src/lib.rs: `Complete` carries the parsed value,
`Partial` means not enough bytes yet. -/
inductive Status (T : Type) where
  | Complete (v : T)
  | Partial
  deriving DecidableEq, Repr

/-- `type Result<T> = result::Result<Status<T>, Error>` in src/lib.rs. -/
abbrev Result (T : Type) := Except Error (Status T)

/-- `const META_MAX_LENGTH: usize = 1024` in src/lib.rs. -/
def META_MAX_LENGTH : Nat := 1024

/-- `skip_empty_lines` from src/lib.rs.  `pos` is the cursor position and the
list argument is the buffer suffix starting at `pos`.  Returns the cursor
position at which the content line starts, `Partial` on buffer exhaustion,
or `NewLine` when a CR is followed by a present byte other than LF. -/
def skip_empty_lines (pos : Nat) : List Nat → Result Nat
  | [] => .ok .Partial
  | b :: rest =>
    if b = 13 then
      match rest with
      | [] => .ok .Partial
      | b2 :: rest2 =>
        if b2 = 10 then skip_empty_lines (pos + 2) rest2 else .error .NewLine
    else if b = 10 then skip_empty_lines (pos + 1) rest
    else .ok (.Complete pos)

/-- `next_line_inner` from src/lib.rs.  `start` is the content start position
(used only by the length-ceiling check), `pos` the cursor position, the list
the buffer suffix at `pos`.  On success returns the pair
(content end position, cursor position after the terminator): the Rust code
returns `bytes.pos - 2` after consuming CRLF and `bytes.pos - 1` after a
bare LF, and leaves the cursor after the terminator. -/
def next_line_inner (limit : Option Nat) (start : Nat) (pos : Nat) :
    List Nat → Result (Nat × Nat)
  | [] => .ok .Partial
  | b :: rest =>
    if b = 13 then
      match rest with
      | [] => .ok .Partial
      | b2 :: _ =>
        if b2 = 10 then .ok (.Complete (pos, pos + 2)) else .error .NewLine
    else if b = 10 then .ok (.Complete (pos, pos + 1))
    else
      match limit with
      | some l =>
        if pos - start + 1 > l then .error .NewLine
        else next_line_inner limit start (pos + 1) rest
      | none => next_line_inner limit start (pos + 1) rest

/-- `next_line` from src/lib.rs: scanning with no length ceiling. -/
def next_line (start pos : Nat) (l : List Nat) : Result (Nat × Nat) :=
  next_line_inner none start pos l

/-- `next_line_limit` from src/lib.rs: scanning with a length ceiling. -/
def next_line_limit (start pos : Nat) (lim : Nat) (l : List Nat) :
    Result (Nat × Nat) :=
  next_line_inner (some lim) start pos l

/-- `parse_status` from src/lib.rs, always invoked at cursor position 0:
two bytes, each demanded by `expect!(bytes.next() == b'0'..=b'9')`, so an
absent byte gives `Partial` and a present out-of-range byte gives
`Error.Status`; the digits combine as `tens * 10 + ones`. -/
def parse_status : List Nat → Result Nat
  | [] => .ok .Partial
  | b1 :: rest =>
    if 48 ≤ b1 ∧ b1 ≤ 57 then
      match rest with
      | [] => .ok .Partial
      | b2 :: _ =>
        if 48 ≤ b2 ∧ b2 ≤ 57 then .ok (.Complete ((b1 - 48) * 10 + (b2 - 48)))
        else .error .Status
    else .error .Status

/-- Continuation byte test for UTF-8 validation (0x80-0xBF). -/
def isCont (b : Nat) : Bool := decide (128 ≤ b) && decide (b ≤ 191)

/-- UTF-8 validity of a byte sequence, as checked by Rust's
`str::from_utf8` (called in `Response::parse`): ASCII, and 2-4 byte
sequences excluding overlong forms, surrogates and values above U+10FFFF. -/
def validUtf8 : List Nat → Bool
  | [] => true
  | b :: rest =>
    if b ≤ 127 then validUtf8 rest
    else if 194 ≤ b ∧ b ≤ 223 then
      match rest with
      | [] => false
      | b2 :: rest2 => isCont b2 && validUtf8 rest2
    else if 224 ≤ b ∧ b ≤ 239 then
      match rest with
      | b2 :: b3 :: rest3 =>
        (if b = 224 then decide (160 ≤ b2) && decide (b2 ≤ 191)
         else if b = 237 then decide (128 ≤ b2) && decide (b2 ≤ 159)
         else isCont b2) && isCont b3 && validUtf8 rest3
      | _ => false
    else if 240 ≤ b ∧ b ≤ 244 then
      match rest with
      | b2 :: b3 :: b4 :: rest4 =>
        (if b = 240 then decide (144 ≤ b2) && decide (b2 ≤ 191)
         else if b = 244 then decide (128 ≤ b2) && decide (b2 ≤ 143)
         else isCont b2) && isCont b3 && isCont b4 && validUtf8 rest4
      | _ => false
    else false

/-- ASCII letter test, used by the modelled URL capability. -/
def isAlpha (b : Nat) : Bool :=
  (decide (65 ≤ b) && decide (b ≤ 90)) || (decide (97 ≤ b) && decide (b ≤ 122))

/-- A parsed URL as produced by the external URL capability; only the parts
the specification's scenarios observe (scheme and host) plus the remainder. -/
structure Url where
  scheme : List Nat
  host : List Nat
  path : List Nat
  deriving DecidableEq, Repr

/-- Modelled from the spec: the external URL-parsing capability of §6
(`url::Url::parse`, not part of this repository); "pass the text to the
external URL-parsing capability" which accepts an absolute URL or rejects
the text.  The model accepts `<alpha scheme>://<nonempty printable host>`
followed by the rest of the text, enough for the spec's scenarios. -/
def urlParse (bs : List Nat) : Except Unit Url :=
  let scheme := bs.takeWhile isAlpha
  match bs.drop scheme.length with
  | 58 :: 47 :: 47 :: rest2 =>
    if scheme.isEmpty then .error ()
    else
      let host := rest2.takeWhile (fun b => !(b = 47 ∨ b = 63 ∨ b = 35 : Bool))
      if host.isEmpty || !host.all (fun b => decide (33 ≤ b) && decide (b ≤ 126)) then
        .error ()
      else .ok ⟨scheme, host, rest2.drop host.length⟩
  | _ => .error ()

/-- `struct Request` from src/lib.rs. -/
structure Request where
  url : Option Url
  deriving DecidableEq, Repr

/-- `Request::new()`. -/
def Request.new : Request := ⟨none⟩

/-- `Request::parse` from src/lib.rs.  The Rust code converts the line
content with `str::from_utf8_unchecked`, which performs no validation, so
the raw content bytes are handed to the URL capability unchecked.  The
updated struct is returned alongside the result to model the `&mut self`
field writes. -/
def Request.parse (self : Request) (buf : List Nat) : Request × Result Nat :=
  match skip_empty_lines 0 buf with
  | .error e => (self, .error e)
  | .ok .Partial => (self, .ok .Partial)
  | .ok (.Complete start) =>
    match next_line start start (buf.drop start) with
    | .error e => (self, .error e)
    | .ok .Partial => (self, .ok .Partial)
    | .ok (.Complete (endPos, newPos)) =>
      match urlParse ((buf.drop start).take (endPos - start)) with
      | .error _ => (self, .error .ParseUrl)
      | .ok u => ({ url := some u }, .ok (.Complete newPos))

/-- `struct Response` from src/lib.rs; `meta` holds the bytes of the
stored `String`. -/
structure Response where
  status : Option Nat
  meta : Option (List Nat)
  deriving DecidableEq, Repr

/-- `Response::new()`. -/
def Response.new : Response := ⟨none, none⟩

/-- `Response::parse` from src/lib.rs.  Note the Rust code assigns
`self.status` as soon as `parse_status` completes, before the separator,
metadata and UTF-8 checks run; the embedding mirrors that order. -/
def Response.parse (self : Response) (buf : List Nat) : Response × Result Unit :=
  match parse_status buf with
  | .error e => (self, .error e)
  | .ok .Partial => (self, .ok .Partial)
  | .ok (.Complete code) =>
    let self1 : Response := { self with status := some code }
    match buf.drop 2 with
    | [] => (self1, .ok .Partial)
    | b :: rest =>
      if b = 32 then
        match next_line_limit 3 3 META_MAX_LENGTH rest with
        | .error e => (self1, .error e)
        | .ok .Partial => (self1, .ok .Partial)
        | .ok (.Complete (endPos, _)) =>
          let metaBytes := (buf.drop 3).take (endPos - 3)
          if validUtf8 metaBytes then
            ({ self1 with meta := some metaBytes }, .ok (.Complete ()))
          else (self1, .error .InvalidUtf8)
      else (self1, .error .ResponseHeader)

/-- Byte values of a string's characters, for stating the literal
scenarios (ASCII only in all uses). -/
def bytesOf (s : String) : List Nat := s.toList.map Char.toNat

deriving instance DecidableEq for Except

/-- A byte that may appear inside line content: neither CR nor LF. -/
def lineByte (b : Nat) : Bool := !(decide (b = 13)) && !(decide (b = 10))

/-- A wire-grammar line terminator (§6): CRLF or bare LF. -/
def IsTerm (t : List Nat) : Prop := t = [13, 10] ∨ t = [10]

/-- Zero or more blank lines, each CRLF or bare LF (§6 request grammar). -/
inductive Blanks : List Nat → Prop where
  | nil : Blanks []
  | crlf {bs : List Nat} : Blanks bs → Blanks (13 :: 10 :: bs)
  | lf {bs : List Nat} : Blanks bs → Blanks (10 :: bs)

/-- One complete valid request frame (§6): blank lines, then nonempty
CR/LF-free content accepted by the URL capability, then a terminator. -/
def RequestFrame (bs cs t : List Nat) : Prop :=
  Blanks bs ∧ cs ≠ [] ∧ cs.all lineByte = true ∧ IsTerm t ∧
    ∃ u, urlParse cs = .ok u

/-- One complete valid response frame (§6): two ASCII digits, a space,
CR/LF-free valid-UTF-8 metadata within the length ceiling, then a
terminator. -/
def ResponseFrame (d1 d2 : Nat) (ms t : List Nat) : Prop :=
  48 ≤ d1 ∧ d1 ≤ 57 ∧ 48 ≤ d2 ∧ d2 ≤ 57 ∧ ms.all lineByte = true ∧
    ms.length ≤ META_MAX_LENGTH ∧ validUtf8 ms = true ∧ IsTerm t

/-! ## Claim C1 -/

/-- Claim C1, counterexample: on the buffer holding exactly the two status
digits "20", `Response.parse` returns `Partial` yet has already written the
`status` field, so the Response is not left unchanged. -/
theorem response_partial_writes_status_cex :
    (Response.parse Response.new [50, 48]).2 = .ok .Partial ∧
    (Response.parse Response.new [50, 48]).1 ≠ Response.new := by
  decide

/-- Claim C1 (amended): a `Partial` result from `Request.parse` leaves the
Request unchanged, and a `Partial` result from `Response.parse` leaves the
`meta` field unchanged; but `Response.parse` writes `status` as soon as the
two digits parse, so on the buffer "20" it returns `Partial` with
`status = some 20`. -/
theorem parse_partial_field_writes :
    (∀ req buf, (Request.parse req buf).2 = .ok .Partial →
      (Request.parse req buf).1 = req) ∧
    (∀ resp buf, (Response.parse resp buf).2 = .ok .Partial →
      (Response.parse resp buf).1.meta = resp.meta) ∧
    Response.parse Response.new [50, 48] = (⟨some 20, none⟩, .ok .Partial) := by
  refine ⟨?_, ?_, by decide⟩
  · intro req buf
    rcases hs : skip_empty_lines 0 buf with e | s
    · simp [Request.parse, hs]
    · rcases s with start | _
      · rcases hn : next_line start start (buf.drop start) with e | s2
        · simp [Request.parse, hs, hn]
        · rcases s2 with ⟨ePos, nPos⟩ | _
          · rcases hu : urlParse ((buf.drop start).take (ePos - start)) with u | v
            · simp [Request.parse, hs, hn, hu]
            · simp [Request.parse, hs, hn, hu]
          · simp [Request.parse, hs, hn]
      · simp [Request.parse, hs]
  · intro resp buf
    rcases hp : parse_status buf with e | s
    · simp [Response.parse, hp]
    · rcases s with code | _
      · rcases hd : buf.drop 2 with _ | ⟨b, rest⟩
        · simp [Response.parse, hp, hd]
        · by_cases hb : b = 32
          · rcases hn : next_line_limit 3 3 META_MAX_LENGTH rest with e | s2
            · simp [Response.parse, hp, hd, hb, hn]
            · rcases s2 with ⟨ePos, nPos⟩ | _
              · by_cases hv : validUtf8 ((buf.drop 3).take (ePos - 3)) = true
                · simp [Response.parse, hp, hd, hb, hn, hv]
                · simp [Response.parse, hp, hd, hb, hn, hv]
              · simp [Response.parse, hp, hd, hb, hn]
          · simp [Response.parse, hp, hd, hb]
      · simp [Response.parse, hp]

/-- Claim C1, witness for the amended theorem at concrete inputs. -/
theorem parse_partial_field_writes_w :
    (Request.parse Request.new [103]).1 = Request.new ∧
    (Response.parse Response.new [50]).1.meta = Response.new.meta :=
  ⟨parse_partial_field_writes.1 Request.new [103] (by decide),
   parse_partial_field_writes.2.1 Response.new [50] (by decide)⟩

/-! ## Claim C2 -/

/-- Helper: `skip_empty_lines` only ever fails with the line-terminator
error. -/
theorem skip_empty_lines_error_eq (pos : Nat) (l : List Nat) (e : Error)
    (h : skip_empty_lines pos l = .error e) : e = .NewLine := by
  induction pos, l using skip_empty_lines.induct with
  | case1 pos => simp [skip_empty_lines] at h
  | case2 pos => simp [skip_empty_lines] at h
  | case3 pos rest2 ih =>
    rw [skip_empty_lines.eq_def] at h
    simp at h
    exact ih h
  | case4 pos b2 rest2 hb2 =>
    rw [skip_empty_lines.eq_def] at h
    simp [hb2] at h
    exact h.symm
  | case5 pos rest2 hne ih =>
    rw [skip_empty_lines.eq_def] at h
    simp at h
    exact ih h
  | case6 pos b2 rest2 hb13 hb10 =>
    rw [skip_empty_lines.eq_def] at h
    simp [hb13, hb10] at h

/-- Helper: `next_line_inner` only ever fails with the line-terminator
error. -/
theorem next_line_inner_error_eq (limit : Option Nat) (start pos : Nat)
    (l : List Nat) (e : Error)
    (h : next_line_inner limit start pos l = .error e) : e = .NewLine := by
  induction pos, l using next_line_inner.induct limit start with
  | case1 pos => simp [next_line_inner] at h
  | case2 pos => simp [next_line_inner] at h
  | case3 pos rest2 =>
    rw [next_line_inner.eq_def] at h
    simp at h
  | case4 pos b2 rest2 hb2 =>
    rw [next_line_inner.eq_def] at h
    simp [hb2] at h
    exact h.symm
  | case5 pos rest2 hne =>
    rw [next_line_inner.eq_def] at h
    simp at h
  | case6 pos b2 rest2 hb13 hb10 lim hlim hover =>
    rw [next_line_inner.eq_def] at h
    simp [hb13, hb10, hlim, hover] at h
    exact h.symm
  | case7 pos b2 rest2 hb13 hb10 lim hlim hover ih =>
    rw [next_line_inner.eq_def] at h
    simp [hb13, hb10, hlim, hover] at h
    refine ih ?_
    rw [hlim]
    exact h
  | case8 pos b2 rest2 hb13 hb10 hlim ih =>
    rw [next_line_inner.eq_def] at h
    simp [hb13, hb10, hlim] at h
    refine ih ?_
    rw [hlim]
    exact h

/-- Claim C2: the spec demands an encoding error on a request line that is
not valid UTF-8, but `Request::parse` converts the line content with
`str::from_utf8_unchecked` and performs no UTF-8 validation at all: the
embedding of the code can never produce `Error.InvalidUtf8` from
`Request.parse`, and on the buffer [255, 10] (whose line content [255] is
not valid UTF-8) it returns the URL error instead. -/
theorem request_parse_never_utf8_error :
    validUtf8 [255] = false ∧
    (Request.parse Request.new [255, 10]).2 = .error .ParseUrl ∧
    ∀ req buf, (Request.parse req buf).2 ≠ .error .InvalidUtf8 := by
  refine ⟨by decide, by decide, ?_⟩
  intro req buf
  rcases hs : skip_empty_lines 0 buf with e | s
  · have he := skip_empty_lines_error_eq 0 buf e hs
    subst he
    simp [Request.parse, hs]
  · rcases s with start | _
    · rcases hn : next_line start start (buf.drop start) with e | s2
      · have he := next_line_inner_error_eq none start start (buf.drop start) e hn
        subst he
        simp [Request.parse, hs, hn]
      · rcases s2 with ⟨ePos, nPos⟩ | _
        · rcases hu : urlParse ((buf.drop start).take (ePos - start)) with u | v
          · simp [Request.parse, hs, hn, hu]
          · simp [Request.parse, hs, hn, hu]
        · simp [Request.parse, hs, hn]
    · simp [Request.parse, hs]

/-- Claim C2, witness at a concrete buffer. -/
theorem request_parse_never_utf8_error_w :
    (Request.parse Request.new [255, 10]).2 ≠ .error .InvalidUtf8 :=
  request_parse_never_utf8_error.2.2 Request.new [255, 10]

/-! ## Scanning lemmas shared by several claims -/

/-- Helper: one scanning step over a content byte under no ceiling. -/
theorem nli_step_none (start pos b : Nat) (rest : List Nat)
    (hb13 : ¬b = 13) (hb10 : ¬b = 10) :
    next_line_inner none start pos (b :: rest) =
      next_line_inner none start (pos + 1) rest := by
  rw [next_line_inner.eq_def]
  simp [hb13, hb10]

/-- Helper: one scanning step over a content byte within the ceiling. -/
theorem nli_step_some (l start pos b : Nat) (rest : List Nat)
    (hb13 : ¬b = 13) (hb10 : ¬b = 10) (hno : ¬pos - start + 1 > l) :
    next_line_inner (some l) start pos (b :: rest) =
      next_line_inner (some l) start (pos + 1) rest := by
  rw [next_line_inner.eq_def]
  simp [hb13, hb10, hno]

/-- Helper: a content byte that pushes the scanned length past the
ceiling fails with the line-terminator error. -/
theorem nli_step_some_over (l start pos b : Nat) (rest : List Nat)
    (hb13 : ¬b = 13) (hb10 : ¬b = 10) (hyes : pos - start + 1 > l) :
    next_line_inner (some l) start pos (b :: rest) = .error .NewLine := by
  rw [next_line_inner.eq_def]
  simp [hb13, hb10, hyes]

/-- Helper: scanning CR/LF-free content followed by a terminator completes
with the content end and the cursor after the terminator, when the content
fits under any configured ceiling. -/
theorem next_line_inner_complete (limit : Option Nat) (start : Nat)
    (cs t rest : List Nat) :
    ∀ pos, (∀ b ∈ cs, ¬b = 13 ∧ ¬b = 10) → IsTerm t → start ≤ pos →
    (∀ l, limit = some l → pos - start + cs.length ≤ l) →
    next_line_inner limit start pos (cs ++ (t ++ rest)) =
      .ok (.Complete (pos + cs.length, pos + cs.length + t.length)) := by
  induction cs with
  | nil =>
    intro pos _ ht _ _
    rcases ht with h | h <;> subst h <;>
      · rw [next_line_inner.eq_def]
        simp
  | cons c cs ih =>
    intro pos hcs ht hsp hlim
    obtain ⟨hc13, hc10⟩ := hcs c (List.mem_cons_self c cs)
    have hcs2 : ∀ b ∈ cs, ¬b = 13 ∧ ¬b = 10 := fun b hb =>
      hcs b (List.mem_cons_of_mem c hb)
    rw [List.cons_append]
    have e1 : pos + 1 + cs.length = pos + (c :: cs).length := by
      simp
      omega
    rcases limit with _ | l
    · rw [nli_step_none start pos c _ hc13 hc10,
        ih (pos + 1) hcs2 ht (by omega) (by simp), e1]
    · have hb := hlim l rfl
      simp only [List.length_cons] at hb
      rw [nli_step_some l start pos c _ hc13 hc10 (by omega),
        ih (pos + 1) hcs2 ht (by omega)
          (fun l2 hl2 => by injection hl2 with hh; subst hh; omega), e1]

/-- Helper: scanning CR/LF-free content that ends without a terminator
(possibly after a trailing CR as the buffer's last byte) is `Partial`,
when the content fits under any configured ceiling. -/
theorem next_line_inner_partial (limit : Option Nat) (start : Nat)
    (cs t : List Nat) :
    ∀ pos, (∀ b ∈ cs, ¬b = 13 ∧ ¬b = 10) → (t = [] ∨ t = [13]) → start ≤ pos →
    (∀ l, limit = some l → pos - start + cs.length ≤ l) →
    next_line_inner limit start pos (cs ++ t) = .ok .Partial := by
  induction cs with
  | nil =>
    intro pos _ ht _ _
    rcases ht with h | h <;> subst h <;>
      · rw [next_line_inner.eq_def]
        simp
  | cons c cs ih =>
    intro pos hcs ht hsp hlim
    obtain ⟨hc13, hc10⟩ := hcs c (List.mem_cons_self c cs)
    have hcs2 : ∀ b ∈ cs, ¬b = 13 ∧ ¬b = 10 := fun b hb =>
      hcs b (List.mem_cons_of_mem c hb)
    rw [List.cons_append]
    rcases limit with _ | l
    · rw [nli_step_none start pos c _ hc13 hc10]
      exact ih (pos + 1) hcs2 ht (by omega) (by simp)
    · have hb := hlim l rfl
      simp only [List.length_cons] at hb
      rw [nli_step_some l start pos c _ hc13 hc10 (by omega)]
      exact ih (pos + 1) hcs2 ht (by omega)
        (fun l2 hl2 => by injection hl2 with hh; subst hh; omega)

/-- Helper: with a ceiling `l`, scanning enough CR/LF-free content bytes
to pass the ceiling fails with the line-terminator error no matter what
follows them. -/
theorem next_line_inner_over (l : Nat) (start : Nat) (cs rest : List Nat) :
    ∀ pos, (∀ b ∈ cs, ¬b = 13 ∧ ¬b = 10) → cs ≠ [] → start ≤ pos →
    l + 1 ≤ pos - start + cs.length →
    next_line_inner (some l) start pos (cs ++ rest) = .error .NewLine := by
  induction cs with
  | nil =>
    intro pos _ hne _ _
    exact absurd rfl hne
  | cons c cs ih =>
    intro pos hcs _ hsp hlen
    obtain ⟨hc13, hc10⟩ := hcs c (List.mem_cons_self c cs)
    have hcs2 : ∀ b ∈ cs, ¬b = 13 ∧ ¬b = 10 := fun b hb =>
      hcs b (List.mem_cons_of_mem c hb)
    simp only [List.length_cons] at hlen
    rw [List.cons_append]
    by_cases hover : pos - start + 1 > l
    · exact nli_step_some_over l start pos c _ hc13 hc10 hover
    · rw [nli_step_some l start pos c _ hc13 hc10 hover]
      rcases cs with _ | ⟨c2, cs2⟩
      · simp at hlen
        omega
      · exact ih (pos + 1) hcs2 (by simp) (by omega) (by simp at hlen ⊢; omega)

/-- Helper: scanning CR/LF-free content and then a CR followed by a
present byte other than LF fails with the line-terminator error, when the
content fits under any configured ceiling. -/
theorem next_line_inner_cr (limit : Option Nat) (start : Nat) (b : Nat)
    (cs rest : List Nat) :
    ∀ pos, (∀ x ∈ cs, ¬x = 13 ∧ ¬x = 10) → ¬b = 10 → start ≤ pos →
    (∀ l, limit = some l → pos - start + cs.length ≤ l) →
    next_line_inner limit start pos (cs ++ 13 :: b :: rest) = .error .NewLine := by
  induction cs with
  | nil =>
    intro pos _ hb _ _
    rw [next_line_inner.eq_def]
    simp [hb]
  | cons c cs ih =>
    intro pos hcs hb hsp hlim
    obtain ⟨hc13, hc10⟩ := hcs c (List.mem_cons_self c cs)
    have hcs2 : ∀ x ∈ cs, ¬x = 13 ∧ ¬x = 10 := fun x hx =>
      hcs x (List.mem_cons_of_mem c hx)
    rw [List.cons_append]
    rcases limit with _ | l
    · rw [nli_step_none start pos c _ hc13 hc10]
      exact ih (pos + 1) hcs2 hb (by omega) (by simp)
    · have hlb := hlim l rfl
      simp only [List.length_cons] at hlb
      rw [nli_step_some l start pos c _ hc13 hc10 (by omega)]
      exact ih (pos + 1) hcs2 hb (by omega)
        (fun l2 hl2 => by injection hl2 with hh; subst hh; omega)

/-- Helper: one blank-line-skipping step over CRLF. -/
theorem skip_step_crlf (pos : Nat) (rest : List Nat) :
    skip_empty_lines pos (13 :: 10 :: rest) = skip_empty_lines (pos + 2) rest := by
  rw [skip_empty_lines.eq_def]
  simp

/-- Helper: one blank-line-skipping step over a bare LF. -/
theorem skip_step_lf (pos : Nat) (rest : List Nat) :
    skip_empty_lines pos (10 :: rest) = skip_empty_lines (pos + 1) rest := by
  rw [skip_empty_lines.eq_def]
  simp

/-- Helper: skipping the blank lines of a frame stops exactly at the first
content byte and reports its position. -/
theorem skip_empty_lines_blanks (bs : List Nat) (h : Blanks bs) :
    ∀ pos c cs, ¬c = 13 → ¬c = 10 →
    skip_empty_lines pos (bs ++ c :: cs) = .ok (.Complete (pos + bs.length)) := by
  induction h with
  | nil =>
    intro pos c cs hc13 hc10
    rw [List.nil_append, skip_empty_lines.eq_def]
    simp [hc13, hc10]
  | @crlf bs hbs ih =>
    intro pos c cs hc13 hc10
    rw [List.cons_append, List.cons_append, skip_step_crlf,
      ih (pos + 2) c cs hc13 hc10]
    simp only [Except.ok.injEq, Status.Complete.injEq, List.length_cons]
    omega
  | @lf bs hbs ih =>
    intro pos c cs hc13 hc10
    rw [List.cons_append, skip_step_lf, ih (pos + 1) c cs hc13 hc10]
    simp only [Except.ok.injEq, Status.Complete.injEq, List.length_cons]
    omega

/-- Helper: on any `take`-truncation of a run of blank lines the skipping
loop runs out of bytes and reports `Partial`. -/
theorem skip_empty_lines_blanks_take (bs : List Nat) (h : Blanks bs) :
    ∀ pos k, skip_empty_lines pos (bs.take k) = .ok .Partial := by
  induction h with
  | nil =>
    intro pos k
    simp [skip_empty_lines]
  | @crlf bs hbs ih =>
    intro pos k
    rcases k with _ | k2
    · simp [skip_empty_lines]
    · rcases k2 with _ | n
      · have e1 : (13 :: 10 :: bs).take 1 = [13] := rfl
        rw [e1, skip_empty_lines.eq_def]
        simp
      · have e1 : (13 :: 10 :: bs).take (n + 2) = 13 :: 10 :: bs.take n := rfl
        rw [e1, skip_step_crlf]
        exact ih (pos + 2) n
  | @lf bs hbs ih =>
    intro pos k
    rcases k with _ | n
    · simp [skip_empty_lines]
    · have e1 : (10 :: bs).take (n + 1) = 10 :: bs.take n := rfl
      rw [e1, skip_step_lf]
      exact ih (pos + 1) n

/-- Helper: after any run of blank lines, a CR followed by a present
non-LF byte makes the skipping loop fail with the line-terminator error. -/
theorem skip_empty_lines_cr (bs : List Nat) (h : Blanks bs) :
    ∀ pos b rest, ¬b = 10 →
    skip_empty_lines pos (bs ++ 13 :: b :: rest) = .error .NewLine := by
  induction h with
  | nil =>
    intro pos b rest hb
    rw [List.nil_append, skip_empty_lines.eq_def]
    simp [hb]
  | @crlf bs hbs ih =>
    intro pos b rest hb
    rw [List.cons_append, List.cons_append, skip_step_crlf]
    exact ih (pos + 2) b rest hb
  | @lf bs hbs ih =>
    intro pos b rest hb
    rw [List.cons_append, skip_step_lf]
    exact ih (pos + 1) b rest hb

/-- Helper: after any run of blank lines, a CR that is the buffer's last
byte makes the skipping loop report `Partial`. -/
theorem skip_empty_lines_cr_end (bs : List Nat) (h : Blanks bs) :
    ∀ pos, skip_empty_lines pos (bs ++ [13]) = .ok .Partial := by
  induction h with
  | nil =>
    intro pos
    rw [List.nil_append, skip_empty_lines.eq_def]
    simp
  | @crlf bs hbs ih =>
    intro pos
    rw [List.cons_append, List.cons_append, skip_step_crlf]
    exact ih (pos + 2)
  | @lf bs hbs ih =>
    intro pos
    rw [List.cons_append, skip_step_lf]
    exact ih (pos + 1)

/-- Helper: a completed blank-line skip keeps the cursor inside the
buffer: the reported content start lies between the entry position and
the entry position plus the scanned suffix length. -/
theorem skip_empty_lines_complete_bounds (pos : Nat) (l : List Nat) (n : Nat)
    (h : skip_empty_lines pos l = .ok (.Complete n)) :
    pos ≤ n ∧ n ≤ pos + l.length := by
  induction pos, l using skip_empty_lines.induct with
  | case1 pos => simp [skip_empty_lines] at h
  | case2 pos =>
    rw [skip_empty_lines.eq_def] at h
    simp at h
  | case3 pos rest2 ih =>
    rw [skip_step_crlf] at h
    have hb := ih h
    simp only [List.length_cons]
    omega
  | case4 pos b2 rest2 hb2 =>
    rw [skip_empty_lines.eq_def] at h
    simp [hb2] at h
  | case5 pos rest2 h10 ih =>
    rw [skip_step_lf] at h
    have hb := ih h
    simp only [List.length_cons]
    omega
  | case6 pos b2 rest2 hb13 hb10 =>
    rw [skip_empty_lines.eq_def] at h
    simp [hb13, hb10] at h
    simp only [List.length_cons]
    omega

/-- Helper: a completed line scan reports a content end at or after the
entry position, a cursor strictly beyond it that stays inside the
buffer, and the byte just before the final cursor is LF. -/
theorem next_line_inner_complete_bounds (limit : Option Nat) (start pos : Nat)
    (l : List Nat) (e p : Nat)
    (h : next_line_inner limit start pos l = .ok (.Complete (e, p))) :
    pos ≤ e ∧ e < p ∧ p ≤ pos + l.length ∧ l[p - pos - 1]? = some 10 := by
  induction pos, l using next_line_inner.induct limit start with
  | case1 pos => simp [next_line_inner] at h
  | case2 pos =>
    rw [next_line_inner.eq_def] at h
    simp at h
  | case3 pos rest2 =>
    rw [next_line_inner.eq_def] at h
    simp at h
    obtain ⟨he, hp⟩ := h
    subst he
    subst hp
    refine ⟨le_refl _, by omega, by simp only [List.length_cons]; omega, ?_⟩
    have e1 : pos + 2 - pos - 1 = 1 := by omega
    rw [e1]
    simp
  | case4 pos b2 rest2 hb2 =>
    rw [next_line_inner.eq_def] at h
    simp [hb2] at h
  | case5 pos rest2 h10 =>
    rw [next_line_inner.eq_def] at h
    simp at h
    obtain ⟨he, hp⟩ := h
    subst he
    subst hp
    refine ⟨le_refl _, by omega, by simp only [List.length_cons]; omega, ?_⟩
    have e1 : pos + 1 - pos - 1 = 0 := by omega
    rw [e1]
    simp
  | case6 pos b2 rest2 hb13 hb10 lim hlim hover =>
    rw [hlim, nli_step_some_over lim start pos b2 rest2 hb13 hb10 hover] at h
    simp at h
  | case7 pos b2 rest2 hb13 hb10 lim hlim hover ih =>
    rw [hlim, nli_step_some lim start pos b2 rest2 hb13 hb10 hover] at h
    have hb := ih (by rw [hlim]; exact h)
    obtain ⟨h1, h2, h3, h4⟩ := hb
    refine ⟨by omega, h2, by simp only [List.length_cons]; omega, ?_⟩
    have e1 : p - pos - 1 = (p - (pos + 1) - 1) + 1 := by omega
    rw [e1, List.getElem?_cons_succ]
    exact h4
  | case8 pos b2 rest2 hb13 hb10 hlim ih =>
    rw [hlim, nli_step_none start pos b2 rest2 hb13 hb10] at h
    have hb := ih (by rw [hlim]; exact h)
    obtain ⟨h1, h2, h3, h4⟩ := hb
    refine ⟨by omega, h2, by simp only [List.length_cons]; omega, ?_⟩
    have e1 : p - pos - 1 = (p - (pos + 1) - 1) + 1 := by omega
    rw [e1, List.getElem?_cons_succ]
    exact h4

/-- Helper: the Bool-valued content test agrees with its Prop reading. -/
theorem all_lineByte_iff (cs : List Nat) :
    cs.all lineByte = true ↔ ∀ b ∈ cs, ¬b = 13 ∧ ¬b = 10 := by
  simp [List.all_eq_true, lineByte]

/-- Helper: `Request.parse` on one complete valid frame completes,
consumes the whole buffer and stores the parsed URL. -/
theorem request_parse_frame (req : Request) (bs cs t : List Nat) (u : Url)
    (hbs : Blanks bs) (hne : cs ≠ []) (hcs : ∀ b ∈ cs, ¬b = 13 ∧ ¬b = 10)
    (ht : IsTerm t) (hu : urlParse cs = .ok u) :
    Request.parse req (bs ++ (cs ++ t)) =
      ({ url := some u }, .ok (.Complete (bs ++ (cs ++ t)).length)) := by
  rcases cs with _ | ⟨c, cs2⟩
  · exact absurd rfl hne
  obtain ⟨hc13, hc10⟩ := hcs c (List.mem_cons_self c cs2)
  have hskip : skip_empty_lines 0 (bs ++ (c :: (cs2 ++ t))) =
      .ok (.Complete (0 + bs.length)) :=
    skip_empty_lines_blanks bs hbs 0 c (cs2 ++ t) hc13 hc10
  rw [Nat.zero_add] at hskip
  have hdrop : (bs ++ (c :: (cs2 ++ t))).drop bs.length = c :: (cs2 ++ t) :=
    List.drop_left bs _
  have hnext : next_line_inner none bs.length bs.length ((c :: cs2) ++ (t ++ [])) =
      .ok (.Complete (bs.length + (c :: cs2).length,
        bs.length + (c :: cs2).length + t.length)) :=
    next_line_inner_complete none bs.length (c :: cs2) t [] bs.length hcs ht
      (le_refl _) (by simp)
  rw [List.append_nil] at hnext
  have htake : ((c :: cs2) ++ t).take (bs.length + (c :: cs2).length - bs.length) =
      c :: cs2 := by
    rw [Nat.add_sub_cancel_left]
    exact List.take_left _ _
  simp only [List.cons_append] at hnext htake
  simp [Request.parse, next_line, hskip, hdrop, hnext, htake, hu]
  omega

/-- Helper: `Request.parse` on any shorter `take`-truncation of a
complete valid frame reports `Partial`. -/
theorem request_parse_take_partial (req : Request) (bs cs t : List Nat)
    (hbs : Blanks bs) (hne : cs ≠ []) (hcs : ∀ b ∈ cs, ¬b = 13 ∧ ¬b = 10)
    (ht : IsTerm t) (k : Nat) (hk : k < (bs ++ (cs ++ t)).length) :
    (Request.parse req ((bs ++ (cs ++ t)).take k)).2 = .ok .Partial := by
  by_cases hkb : k ≤ bs.length
  · rw [List.take_append_of_le_length hkb]
    have hskip := skip_empty_lines_blanks_take bs hbs 0 k
    simp [Request.parse, hskip]
  · push_neg at hkb
    have e1 : (bs ++ (cs ++ t)).take k = bs ++ (cs ++ t).take (k - bs.length) := by
      rw [List.take_append_eq_append_take, List.take_of_length_le (by omega)]
    rw [e1]
    rcases cs with _ | ⟨c, cs2⟩
    · exact absurd rfl hne
    obtain ⟨hc13, hc10⟩ := hcs c (List.mem_cons_self c cs2)
    have hcs2 : ∀ b ∈ cs2, ¬b = 13 ∧ ¬b = 10 := fun b hb =>
      hcs b (List.mem_cons_of_mem c hb)
    obtain ⟨j, hj⟩ : ∃ j, k - bs.length = j + 1 := ⟨k - bs.length - 1, by omega⟩
    rw [hj]
    have e2 : ((c :: cs2) ++ t).take (j + 1) = c :: (cs2 ++ t).take j := by
      rw [List.cons_append, List.take_succ_cons]
    rw [e2]
    have hskip : skip_empty_lines 0 (bs ++ (c :: (cs2 ++ t).take j)) =
        .ok (.Complete (0 + bs.length)) :=
      skip_empty_lines_blanks bs hbs 0 c _ hc13 hc10
    rw [Nat.zero_add] at hskip
    have hdrop : (bs ++ (c :: (cs2 ++ t).take j)).drop bs.length =
        c :: (cs2 ++ t).take j := List.drop_left bs _
    simp only [List.length_append, List.length_cons, List.length_append] at hk
    have hnext : next_line_inner none bs.length bs.length
        (c :: (cs2 ++ t).take j) = .ok .Partial := by
      by_cases hjm : j ≤ cs2.length
      · rw [List.take_append_of_le_length hjm]
        have : (c :: cs2.take j) ++ ([] : List Nat) = c :: cs2.take j := by simp
        rw [← this]
        refine next_line_inner_partial none bs.length (c :: cs2.take j) []
          bs.length ?_ (Or.inl rfl) (le_refl _) (by simp)
        intro b hb
        rcases List.mem_cons.1 hb with hb | hb
        · subst hb
          exact ⟨hc13, hc10⟩
        · exact hcs2 b ((List.take_sublist j cs2).subset hb)
      · push_neg at hjm
        have ht2 : t = [13, 10] := by
          rcases ht with h | h
          · exact h
          · subst h
            simp at hk
            omega
        subst ht2
        have hj2 : j = cs2.length + 1 := by
          simp at hk
          omega
        subst hj2
        have e3 : (cs2 ++ [13, 10]).take (cs2.length + 1) = cs2 ++ [13] := by
          rw [List.take_append_eq_append_take,
            List.take_of_length_le (by omega), Nat.add_sub_cancel_left]
          rfl
        rw [e3]
        have e4 : c :: (cs2 ++ [13]) = (c :: cs2) ++ [13] := by
          rw [List.cons_append]
        rw [e4]
        refine next_line_inner_partial none bs.length (c :: cs2) [13]
          bs.length hcs (Or.inr rfl) (le_refl _) (by simp)
    simp [Request.parse, next_line, hskip, hdrop, hnext]

/-- Helper: `Response.parse` on one complete valid frame completes and
stores the status code and the metadata bytes. -/
theorem response_parse_frame (resp : Response) (d1 d2 : Nat) (ms t : List Nat)
    (h1 : 48 ≤ d1) (h2 : d1 ≤ 57) (h3 : 48 ≤ d2) (h4 : d2 ≤ 57)
    (hms : ∀ b ∈ ms, ¬b = 13 ∧ ¬b = 10) (hlen : ms.length ≤ META_MAX_LENGTH)
    (hutf : validUtf8 ms = true) (ht : IsTerm t) :
    Response.parse resp (d1 :: d2 :: 32 :: (ms ++ t)) =
      ({ status := some ((d1 - 48) * 10 + (d2 - 48)), meta := some ms },
        .ok (.Complete ())) := by
  have hps : parse_status (d1 :: d2 :: 32 :: (ms ++ t)) =
      .ok (.Complete ((d1 - 48) * 10 + (d2 - 48))) := by
    simp [parse_status, h1, h2, h3, h4]
  have hnext : next_line_inner (some META_MAX_LENGTH) 3 3 (ms ++ (t ++ [])) =
      .ok (.Complete (3 + ms.length, 3 + ms.length + t.length)) :=
    next_line_inner_complete (some META_MAX_LENGTH) 3 ms t [] 3 hms ht
      (le_refl _) (fun l hl => by injection hl with hh; subst hh; simpa using hlen)
  rw [List.append_nil] at hnext
  have htake : (ms ++ t).take (3 + ms.length - 3) = ms := by
    rw [Nat.add_sub_cancel_left]
    exact List.take_left _ _
  simp [Response.parse, next_line_limit, hps, hnext, htake, hutf]

/-- Helper: `Response.parse` on any shorter `take`-truncation of a
complete valid frame reports `Partial`. -/
theorem response_parse_take_partial (resp : Response) (d1 d2 : Nat)
    (ms t : List Nat)
    (h1 : 48 ≤ d1) (h2 : d1 ≤ 57) (h3 : 48 ≤ d2) (h4 : d2 ≤ 57)
    (hms : ∀ b ∈ ms, ¬b = 13 ∧ ¬b = 10) (hlen : ms.length ≤ META_MAX_LENGTH)
    (ht : IsTerm t) (k : Nat) (hk : k < (d1 :: d2 :: 32 :: (ms ++ t)).length) :
    (Response.parse resp ((d1 :: d2 :: 32 :: (ms ++ t)).take k)).2 =
      .ok .Partial := by
  rcases k with _ | ⟨_ | ⟨_ | j⟩⟩
  · simp [Response.parse, parse_status]
  · have e1 : (d1 :: d2 :: 32 :: (ms ++ t)).take 1 = [d1] := rfl
    rw [e1]
    simp [Response.parse, parse_status, h1, h2]
  · have e1 : (d1 :: d2 :: 32 :: (ms ++ t)).take 2 = [d1, d2] := rfl
    rw [e1]
    simp [Response.parse, parse_status, h1, h2, h3, h4]
  · have e1 : (d1 :: d2 :: 32 :: (ms ++ t)).take (j + 3) =
        d1 :: d2 :: 32 :: (ms ++ t).take j := rfl
    rw [e1]
    have hps : parse_status (d1 :: d2 :: 32 :: (ms ++ t).take j) =
        .ok (.Complete ((d1 - 48) * 10 + (d2 - 48))) := by
      simp [parse_status, h1, h2, h3, h4]
    simp only [List.length_cons, List.length_append] at hk
    have hnext : next_line_inner (some META_MAX_LENGTH) 3 3 ((ms ++ t).take j) =
        .ok .Partial := by
      by_cases hjm : j ≤ ms.length
      · rw [List.take_append_of_le_length hjm]
        have e2 : ms.take j ++ ([] : List Nat) = ms.take j := by simp
        rw [← e2]
        refine next_line_inner_partial (some META_MAX_LENGTH) 3 (ms.take j) []
          3 (fun b hb => hms b ((List.take_sublist j ms).subset hb))
          (Or.inl rfl) (le_refl _) ?_
        intro l hl
        injection hl with hh
        subst hh
        have := List.length_take_le j ms
        simp
        omega
      · push_neg at hjm
        have ht2 : t = [13, 10] := by
          rcases ht with h | h
          · exact h
          · subst h
            simp at hk
            omega
        subst ht2
        have hj2 : j = ms.length + 1 := by
          simp at hk
          omega
        subst hj2
        have e3 : (ms ++ [13, 10]).take (ms.length + 1) = ms ++ [13] := by
          rw [List.take_append_eq_append_take,
            List.take_of_length_le (by omega), Nat.add_sub_cancel_left]
          rfl
        rw [e3]
        refine next_line_inner_partial (some META_MAX_LENGTH) 3 ms [13]
          3 hms (Or.inr rfl) (le_refl _) ?_
        intro l hl
        injection hl with hh
        subst hh
        simpa using hlen
    simp [Response.parse, next_line_limit, hps, hnext]

/-- Helper: inversion of a completed `Request.parse`: the blank-line skip
completed at some content start and the line scan completed with the
returned cursor. -/
theorem request_parse_complete_inv (req : Request) (buf : List Nat) (n : Nat)
    (h : (Request.parse req buf).2 = .ok (.Complete n)) :
    ∃ start ePos, skip_empty_lines 0 buf = .ok (.Complete start) ∧
      next_line start start (buf.drop start) = .ok (.Complete (ePos, n)) := by
  rcases hs : skip_empty_lines 0 buf with e | s
  · simp [Request.parse, hs] at h
  · rcases s with start | _
    · rcases hn : next_line start start (buf.drop start) with e | s2
      · simp [Request.parse, hs, hn] at h
      · rcases s2 with ⟨ePos, nPos⟩ | _
        · rcases hu : urlParse ((buf.drop start).take (ePos - start)) with u | v
          · simp [Request.parse, hs, hn, hu] at h
          · simp [Request.parse, hs, hn, hu] at h
            subst h
            exact ⟨start, ePos, rfl, hn⟩
        · simp [Request.parse, hs, hn] at h
    · simp [Request.parse, hs] at h

/-! ## Claim C3 -/

/-- Claim C3, counterexample: on the exact bytes of
"gemini://example.com\r\n" (a 22-byte buffer), `Request.parse` does not
return a consumed count of 23. -/
theorem request_scenario_consumed_cex :
    (Request.parse Request.new (bytesOf "gemini://example.com" ++ [13, 10])).2 ≠
      .ok (.Complete 23) := by
  decide

/-- Claim C3 (amended): `Request.parse` on the exact bytes of
"gemini://example.com\r\n" returns `Complete` with a consumed byte count
of 22 — the buffer's whole length (20 content bytes plus CRLF) — and the
stored URL has scheme "gemini" and host "example.com". -/
theorem request_scenario :
    (Request.parse Request.new (bytesOf "gemini://example.com" ++ [13, 10])).2 =
      .ok (.Complete 22) ∧
    (bytesOf "gemini://example.com" ++ [13, 10]).length = 22 ∧
    (Request.parse Request.new (bytesOf "gemini://example.com" ++ [13, 10])).1.url =
      some ⟨bytesOf "gemini", bytesOf "example.com", []⟩ := by
  decide

/-! ## Claim C4 -/

/-- Claim C4, counterexample: the 1-byte input [97] (letter a) makes
`parse_status` fail with the status error, not `Partial`. -/
theorem parse_status_one_byte_cex :
    parse_status [97] ≠ .ok .Partial ∧ parse_status [97] = .error .Status := by
  decide

/-- Claim C4 (amended): a 1-byte input yields `Partial` when its byte is
an ASCII digit; a 1-byte input whose byte is not an ASCII digit yields
the status error instead. -/
theorem parse_status_one_byte (b : Nat) :
    (48 ≤ b → b ≤ 57 → parse_status [b] = .ok .Partial) ∧
    (¬(48 ≤ b ∧ b ≤ 57) → parse_status [b] = .error .Status) := by
  constructor
  · intro h1 h2
    simp [parse_status, h1, h2]
  · intro h
    simp [parse_status, h]

/-- Claim C4, witness at the digit byte 53 and the non-digit byte 97. -/
theorem parse_status_one_byte_w :
    parse_status [53] = .ok .Partial ∧ parse_status [97] = .error .Status :=
  ⟨(parse_status_one_byte 53).1 (by decide) (by decide),
   (parse_status_one_byte 97).2 (by decide)⟩

/-! ## Claim C8 -/

/-- Claim C8: on two ASCII digit bytes `parse_status` completes with
tens * 10 + ones — the numeric value of the two-digit string — which is
at most 99; a present non-digit in either of the first two positions
gives the status error. -/
theorem parse_status_two_digits (b1 b2 : Nat) (rest : List Nat) :
    (48 ≤ b1 → b1 ≤ 57 → 48 ≤ b2 → b2 ≤ 57 →
      parse_status (b1 :: b2 :: rest) =
        .ok (.Complete ((b1 - 48) * 10 + (b2 - 48))) ∧
      (b1 - 48) * 10 + (b2 - 48) ≤ 99) ∧
    (¬(48 ≤ b1 ∧ b1 ≤ 57) → parse_status (b1 :: b2 :: rest) = .error .Status) ∧
    (48 ≤ b1 ∧ b1 ≤ 57 → ¬(48 ≤ b2 ∧ b2 ≤ 57) →
      parse_status (b1 :: b2 :: rest) = .error .Status) := by
  refine ⟨?_, ?_, ?_⟩
  · intro h1 h2 h3 h4
    exact ⟨by simp [parse_status, h1, h2, h3, h4], by omega⟩
  · intro h
    simp [parse_status, h]
  · intro h1 h2
    simp [parse_status, h1, h2]

/-- Claim C8, witness: the digit pair "20" parses to 20; a non-digit in
the first or the second position gives the status error. -/
theorem parse_status_two_digits_w :
    (parse_status [50, 48] = .ok (.Complete 20) ∧ 20 ≤ 99) ∧
    parse_status [97, 48] = .error .Status ∧
    parse_status [50, 97] = .error .Status := by
  refine ⟨?_, ?_, ?_⟩
  · have h := (parse_status_two_digits 50 48 []).1 (by decide) (by decide)
      (by decide) (by decide)
    exact ⟨h.1, by omega⟩
  · exact (parse_status_two_digits 97 48 []).2.1 (by decide)
  · exact (parse_status_two_digits 50 97 []).2.2 (by decide) (by decide)

/-! ## Claim C5 -/

/-- Claim C5: for every complete valid frame, the full byte sequence
parses to `Complete` (consuming the whole buffer in the request case) and
every non-empty strict truncation of it parses to `Partial` — never
`Complete`, never an error. -/
theorem frame_prefix_exactness (req : Request) (resp : Response)
    (bs cs t : List Nat) (hreq : RequestFrame bs cs t)
    (d1 d2 : Nat) (ms t2 : List Nat) (hresp : ResponseFrame d1 d2 ms t2) :
    ((Request.parse req (bs ++ (cs ++ t))).2 =
      .ok (.Complete (bs ++ (cs ++ t)).length)) ∧
    (∀ k, 0 < k → k < (bs ++ (cs ++ t)).length →
      (Request.parse req ((bs ++ (cs ++ t)).take k)).2 = .ok .Partial) ∧
    ((Response.parse resp (d1 :: d2 :: 32 :: (ms ++ t2))).2 =
      .ok (.Complete ())) ∧
    (∀ k, 0 < k → k < (d1 :: d2 :: 32 :: (ms ++ t2)).length →
      (Response.parse resp ((d1 :: d2 :: 32 :: (ms ++ t2)).take k)).2 =
        .ok .Partial) := by
  obtain ⟨hbs, hne, hcs, ht, u, hu⟩ := hreq
  obtain ⟨h1, h2, h3, h4, hms, hlen, hutf, ht2⟩ := hresp
  have hcs2 := (all_lineByte_iff cs).1 hcs
  have hms2 := (all_lineByte_iff ms).1 hms
  refine ⟨?_, ?_, ?_, ?_⟩
  · rw [request_parse_frame req bs cs t u hbs hne hcs2 ht hu]
  · intro k _ hk
    exact request_parse_take_partial req bs cs t hbs hne hcs2 ht k hk
  · rw [response_parse_frame resp d1 d2 ms t2 h1 h2 h3 h4 hms2 hlen hutf ht2]
  · intro k _ hk
    exact response_parse_take_partial resp d1 d2 ms t2 h1 h2 h3 h4 hms2 hlen
      ht2 k hk

/-- Claim C5, witness: the 6-byte request frame "a://b\n" and the 6-byte
response frame "20 m\r\n", whole and truncated. -/
theorem frame_prefix_exactness_w :
    (Request.parse Request.new ([] ++ ([97, 58, 47, 47, 98] ++ [10]))).2 =
      .ok (.Complete ([] ++ ([97, 58, 47, 47, 98] ++ [10])).length) ∧
    (Request.parse Request.new
      (([] ++ ([97, 58, 47, 47, 98] ++ [10])).take 3)).2 = .ok .Partial ∧
    (Response.parse Response.new (50 :: 48 :: 32 :: ([109] ++ [13, 10]))).2 =
      .ok (.Complete ()) ∧
    (Response.parse Response.new
      ((50 :: 48 :: 32 :: ([109] ++ [13, 10])).take 5)).2 = .ok .Partial := by
  have h := frame_prefix_exactness Request.new Response.new
    [] [97, 58, 47, 47, 98] [10]
    ⟨Blanks.nil, by decide, by decide, Or.inr rfl, ⟨[97], [98], []⟩, by decide⟩
    50 48 [109] [13, 10]
    ⟨by decide, by decide, by decide, by decide, by decide, by decide,
      by decide, Or.inl rfl⟩
  exact ⟨h.1, h.2.1 3 (by decide) (by decide), h.2.2.1,
    h.2.2.2 5 (by decide) (by decide)⟩

/-! ## Claim C6 -/

/-- Claim C6: a response whose metadata is exactly `META_MAX_LENGTH`
(1024) CR/LF-free bytes followed by a valid terminator completes, while a
response whose buffer carries 1025 CR/LF-free metadata bytes fails with
the line-terminator error regardless of what bytes (terminator or not)
follow them. -/
theorem response_meta_ceiling (resp : Response) (d1 d2 : Nat)
    (ms t ms2 rest2 : List Nat)
    (h1 : 48 ≤ d1) (h2 : d1 ≤ 57) (h3 : 48 ≤ d2) (h4 : d2 ≤ 57)
    (hms : ms.all lineByte = true) (hlen : ms.length = META_MAX_LENGTH)
    (hutf : validUtf8 ms = true) (ht : IsTerm t)
    (hms2 : ms2.all lineByte = true)
    (hlen2 : ms2.length = META_MAX_LENGTH + 1) :
    (Response.parse resp (d1 :: d2 :: 32 :: (ms ++ t))).2 =
      .ok (.Complete ()) ∧
    (Response.parse resp (d1 :: d2 :: 32 :: (ms2 ++ rest2))).2 =
      .error .NewLine := by
  constructor
  · rw [response_parse_frame resp d1 d2 ms t h1 h2 h3 h4
      ((all_lineByte_iff ms).1 hms) (le_of_eq hlen) hutf ht]
  · have hps : parse_status (d1 :: d2 :: 32 :: (ms2 ++ rest2)) =
        .ok (.Complete ((d1 - 48) * 10 + (d2 - 48))) := by
      simp [parse_status, h1, h2, h3, h4]
    have hnext : next_line_inner (some META_MAX_LENGTH) 3 3 (ms2 ++ rest2) =
        .error .NewLine := by
      refine next_line_inner_over META_MAX_LENGTH 3 ms2 rest2 3
        ((all_lineByte_iff ms2).1 hms2) ?_ (le_refl _) (by omega)
      intro hnil
      rw [hnil] at hlen2
      simp [META_MAX_LENGTH] at hlen2
    simp [Response.parse, next_line_limit, hps, hnext]

set_option maxRecDepth 100000 in
set_option maxHeartbeats 4000000 in
/-- Claim C6, witness: metadata of 1024 letters completes; 1025 letters
followed by a terminator still fail with the line-terminator error. -/
theorem response_meta_ceiling_w :
    (Response.parse Response.new
      (50 :: 48 :: 32 :: (List.replicate 1024 97 ++ [13, 10]))).2 =
      .ok (.Complete ()) ∧
    (Response.parse Response.new
      (50 :: 48 :: 32 :: (List.replicate 1025 97 ++ [13, 10]))).2 =
      .error .NewLine := by
  have hall : ∀ n, (List.replicate n 97).all lineByte = true := by
    intro n
    rw [List.all_eq_true]
    intro b hb
    rw [List.eq_of_mem_replicate hb]
    decide
  exact (response_meta_ceiling Response.new 50 48
    (List.replicate 1024 97) [13, 10] (List.replicate 1025 97) [13, 10]
    (by decide) (by decide) (by decide) (by decide)
    (hall 1024) (by rw [List.length_replicate]; rfl) (by decide) (Or.inl rfl)
    (hall 1025) (by rw [List.length_replicate]; rfl))

/-! ## Claim C7 -/

/-- Claim C7: in both the blank-line-skipping phase (after any run of
blank lines) and the content-scanning phase (after any run of in-ceiling
content bytes), a CR followed by a present byte other than LF fails with
the line-terminator error, while a CR that is the buffer's last byte
reports `Partial`. -/
theorem cr_requires_lf (pos start : Nat) (limit : Option Nat)
    (bs cs rest : List Nat) (b : Nat)
    (hbs : Blanks bs) (hcs : cs.all lineByte = true) (hb : ¬b = 10)
    (hsp : start ≤ pos)
    (hlim : ∀ l, limit = some l → pos - start + cs.length ≤ l) :
    skip_empty_lines pos (bs ++ 13 :: b :: rest) = .error .NewLine ∧
    skip_empty_lines pos (bs ++ [13]) = .ok .Partial ∧
    next_line_inner limit start pos (cs ++ 13 :: b :: rest) = .error .NewLine ∧
    next_line_inner limit start pos (cs ++ [13]) = .ok .Partial := by
  have hcs2 := (all_lineByte_iff cs).1 hcs
  exact ⟨skip_empty_lines_cr bs hbs pos b rest hb,
    skip_empty_lines_cr_end bs hbs pos,
    next_line_inner_cr limit start b cs rest pos hcs2 hb hsp hlim,
    next_line_inner_partial limit start cs [13] pos hcs2 (Or.inr rfl) hsp hlim⟩

/-- Claim C7, witness at one blank line, one content byte, ceiling 5 and
the non-LF byte 0. -/
theorem cr_requires_lf_w :
    skip_empty_lines 0 ([10] ++ 13 :: 0 :: []) = .error .NewLine ∧
    skip_empty_lines 0 ([10] ++ [13]) = .ok .Partial ∧
    next_line_inner (some 5) 2 2 ([97] ++ 13 :: 0 :: []) = .error .NewLine ∧
    next_line_inner (some 5) 2 2 ([97] ++ [13]) = .ok .Partial :=
  cr_requires_lf 2 2 (some 5) [10] [97] [] 0
    (Blanks.lf Blanks.nil) (by decide) (by decide) (le_refl 2)
    (fun l hl => by injection hl with hh; subst hh; decide)

/-! ## Claim C9 -/

/-- Claim C9: the cursor invariant and slice-range safety: a completed
blank-line skip and a completed line scan report positions inside the
buffer; a completed `Request.parse` reports a consumed count at most the
buffer length; and each extracted sub-slice range — [start, endPos] in
`Request.parse` and [3, endPos] in `Response.parse` — satisfies
start ≤ end ≤ buffer length.  (Byte reads are by construction in bounds
in the embedding: `peek`/`next` are total list pattern matches.) -/
theorem parser_cursor_and_slice_bounds :
    (∀ pos l n, skip_empty_lines pos l = .ok (.Complete n) →
      pos ≤ n ∧ n ≤ pos + l.length) ∧
    (∀ limit start pos l e p,
      next_line_inner limit start pos l = .ok (.Complete (e, p)) →
      pos ≤ e ∧ e < p ∧ p ≤ pos + l.length) ∧
    (∀ req buf n, (Request.parse req buf).2 = .ok (.Complete n) →
      n ≤ buf.length) ∧
    (∀ (buf : List Nat) start e p,
      skip_empty_lines 0 buf = .ok (.Complete start) →
      next_line start start (buf.drop start) = .ok (.Complete (e, p)) →
      start ≤ e ∧ e ≤ buf.length ∧ p ≤ buf.length) ∧
    (∀ (buf rest : List Nat) e p, buf.drop 2 = 32 :: rest →
      next_line_limit 3 3 META_MAX_LENGTH rest = .ok (.Complete (e, p)) →
      3 ≤ e ∧ e ≤ buf.length ∧ p ≤ buf.length) := by
  have hnl : ∀ (buf : List Nat) start e p,
      skip_empty_lines 0 buf = .ok (.Complete start) →
      next_line start start (buf.drop start) = .ok (.Complete (e, p)) →
      start ≤ e ∧ e ≤ buf.length ∧ p ≤ buf.length := by
    intro buf start e p hs hn
    obtain ⟨hs1, hs2⟩ := skip_empty_lines_complete_bounds 0 buf start hs
    obtain ⟨h1, h2, h3, _⟩ :=
      next_line_inner_complete_bounds none start start (buf.drop start) e p hn
    rw [List.length_drop] at h3
    omega
  refine ⟨?_, ?_, ?_, hnl, ?_⟩
  · intro pos l n h
    exact skip_empty_lines_complete_bounds pos l n h
  · intro limit start pos l e p h
    obtain ⟨h1, h2, h3, _⟩ :=
      next_line_inner_complete_bounds limit start pos l e p h
    exact ⟨h1, h2, h3⟩
  · intro req buf n h
    obtain ⟨start, ePos, hs, hn⟩ := request_parse_complete_inv req buf n h
    obtain ⟨_, _, hp⟩ := hnl buf start ePos n hs hn
    exact hp
  · intro buf rest e p hdrop hn
    obtain ⟨h1, h2, h3, _⟩ :=
      next_line_inner_complete_bounds (some META_MAX_LENGTH) 3 3 rest e p hn
    have hlen : buf.length - 2 = rest.length + 1 := by
      have := congrArg List.length hdrop
      simpa [List.length_drop] using this
    have hbl : 3 ≤ buf.length := by omega
    omega

/-- Claim C9, witness at concrete completed scans and a completed
request parse. -/
theorem parser_cursor_and_slice_bounds_w :
    (0 ≤ 2 ∧ 2 ≤ 0 + 3) ∧ (6 ≤ 6 ∧ 6 ≤ 6) := by
  constructor
  · exact parser_cursor_and_slice_bounds.1 0 [10, 10, 97] 2 (by decide)
  · have h := parser_cursor_and_slice_bounds.2.2.1 Request.new
      [97, 58, 47, 47, 98, 10] 6 (by decide)
    exact ⟨h, h⟩

/-! ## Claim C10 -/

/-- Claim C10: whenever `Request.parse` returns `Complete n`, the
consumed count satisfies 1 ≤ n ≤ buffer length and the byte at index
n - 1 is the line feed 0x0A. -/
theorem request_consumed_ends_at_lf (req : Request) (buf : List Nat) (n : Nat)
    (h : (Request.parse req buf).2 = .ok (.Complete n)) :
    1 ≤ n ∧ n ≤ buf.length ∧ buf[n - 1]? = some 10 := by
  obtain ⟨start, ePos, hs, hn⟩ := request_parse_complete_inv req buf n h
  obtain ⟨hs1, hs2⟩ := skip_empty_lines_complete_bounds 0 buf start hs
  obtain ⟨h1, h2, h3, h4⟩ :=
    next_line_inner_complete_bounds none start start (buf.drop start) ePos n hn
  rw [List.length_drop] at h3
  refine ⟨by omega, by omega, ?_⟩
  have e1 : n - 1 = start + (n - start - 1) := by omega
  rw [e1, ← List.getElem?_drop]
  exact h4

/-- Claim C10, witness on the frame "a://b\n": consumed count 6, and
byte 5 is LF. -/
theorem request_consumed_ends_at_lf_w :
    1 ≤ 6 ∧ 6 ≤ ([97, 58, 47, 47, 98, 10] : List Nat).length ∧
    ([97, 58, 47, 47, 98, 10] : List Nat)[6 - 1]? = some 10 :=
  request_consumed_ends_at_lf Request.new [97, 58, 47, 47, 98, 10] 6 (by decide)

end Gemini
